import Mathlib

/-!
Shallow embedding of the graphql-import repository: the SDL document data
model, the TypeMap index, the DocumentDefinitionFilter dependency-closure
filter (src/lib/DocumentDefinitionFilter.js), the import-statement parser
and loader (GraphQLFileLoader), and the cached parser (CachedGraphqlParser).
Machine strings are Lean Strings; JS arrays are Lists; JS Maps/objects used
as dictionaries are association lists with the same update semantics; the
unbounded while loops of the source are rendered with explicit fuel and an
Option result (the source can genuinely diverge, so fuel is not a shortcut).
-/

/-- AST node kinds used by the source (graphql.Kind members it dispatches on). -/
inductive Kind
  | objectTypeDefinition
  | interfaceTypeDefinition
  | unionTypeDefinition
  | enumTypeDefinition
  | scalarTypeDefinition
  | inputObjectTypeDefinition
  | directiveDefinition
  | objectTypeExtension
  | interfaceTypeExtension
  | unionTypeExtension
  | enumTypeExtension
  | scalarTypeExtension
  | inputObjectTypeExtension
  | schemaDefinition
  | schemaExtension
  deriving DecidableEq, Repr

/-- A directive usage node; the source only ever reads directive.name.value. -/
structure Directive where
  name : String
  deriving DecidableEq, Repr

/-- A NamedType reference node (iface.name.value / type.name.value in the source). -/
structure NamedRef where
  name : String
  deriving DecidableEq, Repr

/-- A type reference: NamedType, ListType or NonNullType (the wrapping chain). -/
inductive TypeNode
  | namedType (name : String)
  | listType (inner : TypeNode)
  | nonNullType (inner : TypeNode)
  deriving DecidableEq, Repr

/-- An argument (InputValueDefinition) node: the source reads arg.type only. -/
structure Argument where
  name : String
  type : TypeNode
  deriving DecidableEq, Repr

/-- A field definition node. Input-object fields carry no arguments property
in the AST, hence the Option (the source tests `if (!field.arguments)`). -/
structure FieldDef where
  name : String
  arguments : Option (List Argument)
  type : TypeNode
  directives : List Directive
  deriving DecidableEq, Repr

/-- An enum value node with its directives. -/
structure EnumValue where
  name : String
  directives : List Directive
  deriving DecidableEq, Repr

/-- A top-level definition node, as the dynamically-typed source sees it: a
kind tag plus the properties the filter reads for that kind (absent
properties are empty lists, which the source never distinguishes from
missing because it only iterates them after a kind check). -/
structure Definition where
  kind : Kind
  name : String
  directives : List Directive := []
  interfaces : List NamedRef := []
  fields : List FieldDef := []
  types : List NamedRef := []
  values : List EnumValue := []
  deriving DecidableEq, Repr

/-- A parsed SDL document: an ordered list of definitions. -/
structure Document where
  definitions : List Definition
  deriving DecidableEq, Repr

/-- Association-list lookup, the rendering of JS dictionary-object reads. -/
def assocFind {α : Type} [DecidableEq α] {β : Type} (l : List (α × β)) (k : α) : Option β :=
  match l with
  | [] => none
  | (k', v) :: rest => if k' = k then some v else assocFind rest k

/-- Association-list write with JS object-assignment semantics: an existing
key is overwritten in place, a new key is appended. -/
def assocSet {α : Type} [DecidableEq α] {β : Type} (l : List (α × β)) (k : α) (v : β) :
    List (α × β) :=
  match l with
  | [] => [(k, v)]
  | (k', v') :: rest => if k' = k then (k, v) :: rest else (k', v') :: assocSet rest k v

/-- Appends values to the list stored under a key, creating the entry when
absent: the rendering of the `if (!m[k]) m[k] = []; m[k].push(...)` idiom. -/
def assocAppend {α : Type} [DecidableEq α] {β : Type} (l : List (α × List β)) (k : α)
    (vs : List β) : List (α × List β) :=
  match assocFind l k with
  | some old => assocSet l k (old ++ vs)
  | none => l ++ [(k, vs)]

/-- TypeMap.isTypeDefinition from src/lib/DocumentDefinitionFilter.js. -/
def isTypeDefinitionKind (k : Kind) : Bool :=
  k = Kind.objectTypeDefinition ||
  k = Kind.unionTypeDefinition ||
  k = Kind.enumTypeDefinition ||
  k = Kind.scalarTypeDefinition ||
  k = Kind.directiveDefinition ||
  k = Kind.inputObjectTypeDefinition ||
  k = Kind.interfaceTypeDefinition

/-- DocumentDefinitionFilter.extensionType from src/lib/DocumentDefinitionFilter.js. -/
def extensionType (k : Kind) : Bool :=
  k = Kind.objectTypeExtension ||
  k = Kind.unionTypeExtension ||
  k = Kind.interfaceTypeExtension ||
  k = Kind.scalarTypeExtension ||
  k = Kind.inputObjectTypeExtension ||
  k = Kind.enumTypeExtension

/-- The per-document index of src/lib/DocumentDefinitionFilter.js: base
definitions by name (unique, last write wins), extension lists by name, and
interface name to implementing type names. -/
structure TypeMap where
  types : List (String × Definition) := []
  typeExtensions : List (String × List Definition) := []
  interfaceImplementations : List (String × List String) := []
  schema : Option Definition := none
  schemaExtensions : List Definition := []
  deriving DecidableEq, Repr

/-- TypeMap.addInterfacesFor: records type.name under each declared interface. -/
def TypeMap.addInterfacesFor (tm : TypeMap) (type : Definition) : TypeMap :=
  type.interfaces.foldl
    (fun acc iface =>
      { acc with
        interfaceImplementations :=
          assocAppend acc.interfaceImplementations iface.name [type.name] })
    tm

/-- TypeMap.addType: schema nodes are captured separately, object
definitions and extensions record their interface links, extension kinds go
to the extension lists, and the remaining type-definition kinds populate the
base-definition map (last one wins on a repeated name). -/
def TypeMap.addType (tm : TypeMap) (type : Definition) : TypeMap :=
  if type.kind = Kind.schemaDefinition then
    { tm with schema := some type }
  else if type.kind = Kind.schemaExtension then
    { tm with schemaExtensions := tm.schemaExtensions ++ [type] }
  else
    let tm1 :=
      if type.kind = Kind.objectTypeDefinition || type.kind = Kind.objectTypeExtension then
        tm.addInterfacesFor type
      else tm
    if extensionType type.kind then
      { tm1 with typeExtensions := assocAppend tm1.typeExtensions type.name [type] }
    else if isTypeDefinitionKind type.kind then
      { tm1 with types := assocSet tm1.types type.name type }
    else tm1

/-- The TypeMap constructor: fold addType over the document definitions. -/
def TypeMap.build (definitions : List Definition) : TypeMap :=
  definitions.foldl TypeMap.addType {}

/-- TypeMap.getType. -/
def TypeMap.getType (tm : TypeMap) (typeName : String) : Option Definition :=
  assocFind tm.types typeName

/-- TypeMap.getTypeExtensions. -/
def TypeMap.getTypeExtensions (tm : TypeMap) (typeName : String) : List Definition :=
  (assocFind tm.typeExtensions typeName).getD []

/-- TypeMap.getImplementationsOf. -/
def TypeMap.getImplementationsOf (tm : TypeMap) (interfaceName : String) : List String :=
  (assocFind tm.interfaceImplementations interfaceName).getD []

/-- DocumentDefinitionFilter.isBuiltInType. -/
def isBuiltInType (typeName : String) : Bool :=
  typeName = "String" ||
  typeName = "Int" ||
  typeName = "Float" ||
  typeName = "Boolean" ||
  typeName = "ID"

/-- DocumentDefinitionFilter.unwrapTypeNameFrom, applied to node.type: the
while loop drills through NonNull and List wrappers and stops as soon as the
named type's name replaces the node (a string has no kind). -/
def unwrapTypeNameFrom : TypeNode → String
  | TypeNode.namedType name => name
  | TypeNode.listType inner => unwrapTypeNameFrom inner
  | TypeNode.nonNullType inner => unwrapTypeNameFrom inner

/-- DocumentDefinitionFilter.addArgumentTypes: unwrapped argument types that
are not built-in scalars. -/
def addArgumentTypes (field : FieldDef) : List String :=
  match field.arguments with
  | none => []
  | some args =>
    args.flatMap (fun arg =>
      let argType := unwrapTypeNameFrom arg.type
      if isBuiltInType argType then [] else [argType])

/-- The dependencies one field contributes inside addFieldTypes: its
argument types, its own unwrapped type unless built-in, and its directive
names (the latter are not filtered). -/
def fieldDeps (field : FieldDef) : List String :=
  addArgumentTypes field ++
  (let fieldType := unwrapTypeNameFrom field.type
   if isBuiltInType fieldType then [] else [fieldType]) ++
  field.directives.map Directive.name

/-- DocumentDefinitionFilter.addFieldTypes: fieldDeps over node.fields. -/
def addFieldTypes (node : Definition) : List String :=
  node.fields.flatMap fieldDeps

/-- DocumentDefinitionFilter.addTransitiveTypes: directives first (every
kind carrying a directives property), then the kind-specific dependencies:
field types for interfaces, interfaces plus field types for object and
input-object kinds, member types for unions, value directives for enums. -/
def addTransitiveTypes (definition : Definition) : List String :=
  definition.directives.map Directive.name ++
  (if definition.kind = Kind.interfaceTypeDefinition ||
      definition.kind = Kind.interfaceTypeExtension then
    addFieldTypes definition
  else if definition.kind = Kind.objectTypeDefinition ||
      definition.kind = Kind.objectTypeExtension ||
      definition.kind = Kind.inputObjectTypeDefinition then
    (if definition.kind = Kind.inputObjectTypeDefinition then []
     else definition.interfaces.map NamedRef.name) ++
    addFieldTypes definition
  else if definition.kind = Kind.unionTypeDefinition ||
      definition.kind = Kind.unionTypeExtension then
    definition.types.map NamedRef.name
  else if definition.kind = Kind.enumTypeDefinition ||
      definition.kind = Kind.enumTypeExtension then
    definition.values.flatMap (fun v => v.directives.map Directive.name)
  else [])

/-- Pushing a batch onto the work stack: JS push appends to the array end
and pop takes from the end, so with the list head as the stack top a batch
lands reversed on top. -/
def pushAll (stack : List String) (batch : List String) : List String :=
  batch.reverse ++ stack

/-- What one base definition pushes when first visited: its transitive
types, then the recorded implementations when (and only when) the
definition is an interface definition or interface extension. -/
def defPushes (tm : TypeMap) (typeName : String) (definition : Definition) : List String :=
  addTransitiveTypes definition ++
  (if definition.kind = Kind.interfaceTypeDefinition ||
      definition.kind = Kind.interfaceTypeExtension then
    tm.getImplementationsOf typeName
  else [])

/-- The dependencies pushed by the unconditional extension loop at the end
of each first-pass iteration. -/
def extDepsOf (tm : TypeMap) (typeName : String) : List String :=
  (tm.getTypeExtensions typeName).flatMap addTransitiveTypes

/-- The first pass of DocumentDefinitionFilter.filter: pop a name, expand
its base definition once (guarded by the visited set), always expand its
extensions, and record visited names in insertion order. The source's while
loop can diverge (extensions of never-defined names are re-expanded on
every pop), so the embedding spends one fuel per iteration and returns none
when fuel runs out. -/
def traverseDeps (tm : TypeMap) : Nat → List String → List String → Option (List String)
  | 0, _, _ => none
  | _ + 1, visited, [] => some visited
  | fuel + 1, visited, typeName :: rest =>
    match tm.getType typeName with
    | some definition =>
      if visited.contains typeName then
        traverseDeps tm fuel visited (pushAll rest (extDepsOf tm typeName))
      else
        traverseDeps tm fuel (visited ++ [typeName])
          (pushAll (pushAll rest (defPushes tm typeName definition)) (extDepsOf tm typeName))
    | none =>
      traverseDeps tm fuel visited (pushAll rest (extDepsOf tm typeName))

/-- The addExtensions closure of the second pass: extensions are appended
after the base definition (push) or prepended before it (unshift); the
added-set bookkeeping only applies to non-extension nodes, which cannot
occur in an extension list built by TypeMap.addType. -/
def addExtensionsFold (push : Bool) : List Definition → List (Kind × String) →
    List Definition → List (Kind × String) × List Definition
  | [], added, toAdd => (added, toAdd)
  | extension :: rest, added, toAdd =>
    if extensionType extension.kind = false then
      if added.contains (extension.kind, extension.name) then
        addExtensionsFold push rest added toAdd
      else
        let added' := (extension.kind, extension.name) :: added
        if push then addExtensionsFold push rest added' (toAdd ++ [extension])
        else addExtensionsFold push rest added' (extension :: toAdd)
    else
      if push then addExtensionsFold push rest added (toAdd ++ [extension])
      else addExtensionsFold push rest added (extension :: toAdd)

/-- One iteration of the second pass over a visited name: fetch the base
definition and extensions, skip everything when this kind and name was
already added, and unshift the collected nodes onto the output. The
added set holds (kind, name) pairs; the source concatenates the two strings,
which is injective here because no two of the seven base-definition kind
names is a prefix of another. -/
def selectStep (tm : TypeMap) (acc : List (Kind × String) × List Definition)
    (typeName : String) : List (Kind × String) × List Definition :=
  let added := acc.1
  let defsAcc := acc.2
  match tm.getType typeName with
  | some definition =>
    if added.contains (definition.kind, typeName) then acc
    else
      let added1 := (definition.kind, typeName) :: added
      let r := addExtensionsFold true (tm.getTypeExtensions typeName) added1 [definition]
      (r.1, r.2 ++ defsAcc)
  | none =>
    let r := addExtensionsFold false (tm.getTypeExtensions typeName) added []
    (r.1, r.2 ++ defsAcc)

/-- The second pass of DocumentDefinitionFilter.filter: walk the visited
names in insertion order and assemble the new document's definitions. -/
def selectDefinitions (tm : TypeMap) (visitedNames : List String) : List Definition :=
  (visitedNames.foldl (selectStep tm) ([], [])).2

/-- DocumentDefinitionFilter.filter as a function of its arguments alone:
merge otherDependencies in front of the document's definitions, build the
TypeMap, run the dependency traversal from the requested names (the JS
array copy is popped from the end, hence the reverse), and select the
visited definitions. -/
def filterPure (document : Document) (otherDependencies : List Definition)
    (types : List String) (fuel : Nat) : Option Document :=
  let mergedDefs := otherDependencies ++ document.definitions
  let tm := TypeMap.build mergedDefs
  match traverseDeps tm fuel [] types.reverse with
  | none => none
  | some visited => some ⟨selectDefinitions tm visited⟩

/-- The mutable state of a DocumentDefinitionFilter instance: the _typeMaps
cache, keyed by the merged document's definitions. The source keys a
WeakMap by the freshly allocated merged-document object, so a lookup can
never observe a stale entry; the value-keyed rendering makes that explicit
through the WF invariant below. -/
structure FilterState where
  typeMaps : List (List Definition × TypeMap) := []
  deriving DecidableEq, Repr

/-- Every cached TypeMap is the one TypeMap.build computes for its key. -/
def FilterState.WF (s : FilterState) : Prop :=
  ∀ p ∈ s.typeMaps, p.2 = TypeMap.build p.1

/-- DocumentDefinitionFilter.getTypeMapFor: consult the instance cache,
building and caching on a miss. -/
def getTypeMapFor (s : FilterState) (definitions : List Definition) :
    TypeMap × FilterState :=
  match assocFind s.typeMaps definitions with
  | some tm => (tm, s)
  | none =>
    let tm := TypeMap.build definitions
    (tm, ⟨s.typeMaps ++ [(definitions, tm)]⟩)

/-- DocumentDefinitionFilter.filter with its instance state threaded
explicitly: the only mutable state it touches is the _typeMaps cache. -/
def DocumentDefinitionFilter.filter (s : FilterState) (document : Document)
    (otherDependencies : List Definition) (types : List String) (fuel : Nat) :
    Option (Document × FilterState) :=
  let mergedDefs := otherDependencies ++ document.definitions
  let r := getTypeMapFor s mergedDefs
  match traverseDeps r.1 fuel [] types.reverse with
  | none => none
  | some visited => some (⟨selectDefinitions r.1 visited⟩, r.2)

/-- Everything popping a name can push: the base-definition pushes when one
exists, followed by the unconditional extension expansion. -/
def expandAll (tm : TypeMap) (typeName : String) : List String :=
  (match tm.getType typeName with
   | some definition => defPushes tm typeName definition
   | none => []) ++ extDepsOf tm typeName

/-- Names of the non-extension definitions in a list. -/
def nonExtensionNames (l : List Definition) : List String :=
  (l.filter (fun x => !extensionType x.kind)).map Definition.name

/-- Double or single quote, the character class of the import regex. -/
def isQuoteChar (c : Char) : Bool :=
  c.toNat = 34 || c.toNat = 39

/-- The whitespace stripped by the String.prototype.trim calls (the ASCII
part of the JS WhiteSpace and LineTerminator classes). -/
def isJsWhitespace (c : Char) : Bool :=
  c = ' ' || c = '\t' || c = '\n' || c = '\r' || c.toNat = 11 || c.toNat = 12

/-- String.prototype.trim on a character list. -/
def trimChars (l : List Char) : List Char :=
  ((l.dropWhile isJsWhitespace).reverse.dropWhile isJsWhitespace).reverse

/-- String.prototype.split on a one-character separator: keeps empty pieces,
exactly like the JS split. -/
def splitOnChar (sep : Char) : List Char → List (List Char)
  | [] => [[]]
  | c :: rest =>
    let r := splitOnChar sep rest
    if c = sep then [] :: r
    else
      match r with
      | [] => [[c]]
      | h :: t => (c :: h) :: t

/-- Removes one carriage return before a line break, so that splitting on a
newline and applying this matches the source's split on the \r?\n pattern. -/
def dropTrailingCR (l : List Char) : List Char :=
  match l.getLast? with
  | some c => if c = '\r' then l.dropLast else l
  | none => l

/-- fileContents.split of the \r?\n pattern. -/
def splitLines (s : List Char) : List (List Char) :=
  (splitOnChar '\n' s).map dropTrailingCR

/-- The marker test of parseImportStatements on an already trimmed line. -/
def isImportMarker (line : List Char) : Bool :=
  "#import".toList.isPrefixOf line || "# import".toList.isPrefixOf line

/-- String.prototype.indexOf for a substring: smallest start position where
the substring occurs. -/
def indexOfSub (s sub : List Char) : Option Nat :=
  ((List.range (s.length + 1)).filter (fun i => sub.isPrefixOf (s.drop i))).head?

/-- line.slice of the position just past the word import plus one more
character, as parseImportStatements computes it. The getD 0 default is
unreachable on the marker lines this is applied to, which always contain
the word. -/
def sliceAfterImport (line : List Char) : List Char :=
  line.drop (((indexOfSub line "import".toList).getD 0) + 7)

/-- The largest index of a quote character at position two or later: where
the greedy second capture group of the import regex places the closing
quote. -/
def lastQuoteIndex (r : List Char) : Option Nat :=
  ((List.range r.length).filter (fun k =>
    decide (2 ≤ k) &&
    (match r.get? k with
     | some c => isQuoteChar c
     | none => false))).getLast?

/-- Whether the part of the import regex after the literal from separator
matches a given remainder: an opening quote, then a nonempty greedy group
closed by some later quote. -/
def tailMatches (r : List Char) : Bool :=
  (match r.head? with
   | some c => isQuoteChar c
   | none => false) &&
  (lastQuoteIndex r).isSome

/-- Whether position j can split the line for the import regex: a nonempty
first group, the literal from separator, and a matching tail. -/
def fromCandidate (s : List Char) (j : Nat) : Bool :=
  decide (1 ≤ j) &&
  ((s.drop j).take 6 == " from ".toList) &&
  tailMatches (s.drop (j + 6))

/-- regex.exec for the unanchored import pattern: a nonempty group, the
literal from separator, then a quote character, a nonempty group and a
quote character, of
GraphQLFileLoader.parseImportStatements: whenever any match exists one
exists starting at position zero, the greedy first group takes the largest
feasible split position, and the greedy second group the last quote at
position two or later of the remainder. -/
def regexImportMatch (s : List Char) : Option (List Char × List Char) :=
  match ((List.range s.length).filter (fromCandidate s)).getLast? with
  | none => none
  | some j =>
    let r := s.drop (j + 6)
    match lastQuoteIndex r with
    | none => none
    | some k => some (s.take j, (r.drop 1).take (k - 1))

/-- path.isAbsolute of the external node path collaborator, for POSIX paths. -/
def isAbsolutePath (p : List Char) : Bool :=
  p.head? == some '/'

/-- path.dirname of the external node path collaborator, for POSIX paths:
everything before the last separator. -/
def dirname (p : List Char) : List Char :=
  match ((List.range p.length).filter (fun i => p.get? i == some '/')).getLast? with
  | none => ['.']
  | some 0 => ['/']
  | some i => p.take i

/-- path.resolve of the external node path collaborator applied to a base
directory and a relative path, rendered as plain joining (the source only
calls it when the specified path is not absolute). -/
def resolveAgainst (basePath p : List Char) : List Char :=
  basePath ++ '/' :: p

/-- One parsed import line: requested type names and the resolved file. -/
structure ImportStatement where
  types : List String
  fileName : String
  deriving DecidableEq, Repr

/-- What a successfully matched import line contributes: the comma-split
trimmed names from the first group, and the trimmed second group resolved
against the base path unless absolute. -/
def importOfMatch (basePath g1 g2 : List Char) : ImportStatement :=
  let types := (splitOnChar ',' (trimChars g1)).map (fun t => String.mk (trimChars t))
  let specifiedPath := trimChars g2
  let fileName :=
    if isAbsolutePath specifiedPath then specifiedPath
    else resolveAgainst basePath specifiedPath
  ⟨types, String.mk fileName⟩

/-- The per-line loop body of GraphQLFileLoader.parseImportStatements:
non-marker lines are skipped, a marker line that fails the regex throws,
and a matching one contributes an import statement. -/
def parseImportLines (basePath : List Char) :
    List (List Char) → Except String (List ImportStatement)
  | [] => Except.ok []
  | l :: rest =>
    let line := trimChars l
    if isImportMarker line then
      match regexImportMatch (sliceAfterImport line) with
      | none => Except.error "Incorrect import syntax"
      | some (g1, g2) =>
        (parseImportLines basePath rest).map
          (fun xs => importOfMatch basePath g1 g2 :: xs)
    else parseImportLines basePath rest

/-- GraphQLFileLoader.parseImportStatements: trim and scan every line of
the contents, resolving against the importing file's directory. -/
def parseImportStatements (filePath contents : String) :
    Except String (List ImportStatement) :=
  parseImportLines (dirname filePath.toList) (splitLines contents.toList)

/-- The import statement a single line yields, when any: none both for
non-marker lines and for marker lines that would throw. -/
def lineImportOf (basePath : List Char) (l : List Char) : Option ImportStatement :=
  let line := trimChars l
  if isImportMarker line then
    match regexImportMatch (sliceAfterImport line) with
    | none => none
    | some (g1, g2) => some (importOfMatch basePath g1 g2)
  else none

/-- Modelled from the spec: a line after the import marker conforms to the
grammar comma-separated type list, the word from, then a single- or
double-quoted path, with nothing after the closing quote and the opening
and closing quote characters agreeing. -/
def specImportGrammar (rest : List Char) : Bool :=
  (List.range rest.length).any (fun j =>
    decide (1 ≤ j) &&
    ((rest.drop j).take 6 == " from ".toList) &&
    (let r := rest.drop (j + 6)
     decide (3 ≤ r.length) &&
     (match r.head?, r.getLast? with
      | some a, some b => isQuoteChar a && isQuoteChar b && a == b
      | _, _ => false)))

/-- GraphQLFileLoader.buildImportDependencyTreeFrom: a work stack of file
paths with a visited set; each unvisited file is read (from the finite file
store standing in for the filesystem), its import statements accumulate
onto the target file's entry, and every target is pushed. The visited list
records the processed files in order. Fuel bounds the loop; a read failure
or import syntax error also yields none. -/
def buildImports (fs : List (String × String)) :
    Nat → List String → List String → List (String × List String) →
    Option (List (String × List String) × List String)
  | 0, _, _, _ => none
  | _ + 1, [], visited, imports => some (imports, visited)
  | fuel + 1, file :: restFiles, visited, imports =>
    if visited.contains file then buildImports fs fuel restFiles visited imports
    else
      match assocFind fs file with
      | none => none
      | some contents =>
        match parseImportStatements file contents with
        | Except.error _ => none
        | Except.ok statements =>
          let imports' := statements.foldl
            (fun acc st => assocAppend acc st.fileName st.types) imports
          buildImports fs fuel
            (pushAll restFiles (statements.map ImportStatement.fileName))
            (visited ++ [file]) imports'

/-- The per-file filter invocation of GraphQLFileLoader.loadFile: the
loader calls the three-parameter DocumentDefinitionFilter.filter with only
(document, types), so the requested-names array binds to the
otherDependencies parameter and the types parameter stays undefined; the
filter body begins by spreading types into the visiting array, which
throws a TypeError before anything else runs. The call therefore never
returns a document, for any document and any name list. -/
def loaderFilterCall (_document : Document) (_requestedNames : List String) :
    Option Document :=
  none

/-- One file's contribution inside GraphQLFileLoader.loadFile: everything
when the accumulated types contain the wildcard; otherwise the loader's
filter call, which always throws (loaderFilterCall), so a non-wildcard
entry contributes nothing and the whole load aborts. The external SDL
parser is a parameter. -/
def entryContribution (contents : String) (parseDoc : String → Document)
    (types : List String) : Option (List Definition) :=
  let document := parseDoc contents
  if types.contains "*" then some document.definitions
  else (loaderFilterCall document types).map Document.definitions

/-- The merge loop of GraphQLFileLoader.loadFile: the copied entries are
popped from the end, so the caller passes them reversed; each file's
contribution is appended in processing order, and a thrown TypeError from
the filter call aborts the loop with no result. -/
def processEntries (fs : List (String × String)) (parseDoc : String → Document) :
    List (String × List String) → Option (List Definition)
  | [] => some []
  | (fileName, types) :: rest =>
    match assocFind fs fileName with
    | none => none
    | some contents =>
      match entryContribution contents parseDoc types with
      | none => none
      | some ds =>
        (processEntries fs parseDoc rest).map (fun acc => ds ++ acc)

/-- GraphQLFileLoader.loadFile for an absolute entry path: build the import
map seeded with the entry under the wildcard, then merge every file's
contribution in reverse discovery order; an aborted entry aborts the load. -/
def loadFileModel (fs : List (String × String)) (parseDoc : String → Document)
    (absolutePath : String) (buildFuel : Nat) : Option (List Definition) :=
  match buildImports fs buildFuel [absolutePath] [] [(absolutePath, ["*"])] with
  | none => none
  | some (imports, _) => processEntries fs parseDoc imports.reverse

/-- The mutable state of a CachedGraphqlParser instance: its _cache map
from file path to parsed document. -/
structure ParserState where
  cache : List (String × Document) := []
  deriving DecidableEq, Repr

/-- CachedGraphqlParser.parse with the external graphql.parse function as a
parameter: a hit returns the cached document untouched, a miss parses,
stores, and returns the stored document. -/
def CachedGraphqlParser.parse (gparse : String → Document) (s : ParserState)
    (filePath contents : String) : Document × ParserState :=
  match assocFind s.cache filePath with
  | some document => (document, s)
  | none =>
    let document := gparse contents
    (document, ⟨assocSet s.cache filePath document⟩)

/-- A wrapping layer around a type reference. -/
inductive WrapKind
  | listWrap
  | nonNullWrap
  deriving DecidableEq, Repr

/-- Builds an arbitrarily deep wrapping chain over a type reference. -/
def applyWrappers : List WrapKind → TypeNode → TypeNode
  | [], t => t
  | WrapKind.listWrap :: ws, t => TypeNode.listType (applyWrappers ws t)
  | WrapKind.nonNullWrap :: ws, t => TypeNode.nonNullType (applyWrappers ws t)

theorem mem_pushAll {n : String} {stack batch : List String} :
    n ∈ pushAll stack batch ↔ n ∈ batch ∨ n ∈ stack := by
  simp [pushAll]

theorem assocFind_mem {α β : Type} [DecidableEq α] {l : List (α × β)} {k : α} {v : β}
    (h : assocFind l k = some v) : (k, v) ∈ l := by
  induction l with
  | nil => simp [assocFind] at h
  | cons p rest ih =>
    obtain ⟨k', v'⟩ := p
    rw [assocFind] at h
    split at h
    · next heq =>
      injection h with h2
      subst h2
      subst heq
      exact List.mem_cons_self _ _
    · exact List.mem_cons_of_mem _ (ih h)

theorem assocFind_assocSet {α β : Type} [DecidableEq α] (l : List (α × β)) (k n : α) (v : β) :
    assocFind (assocSet l k v) n = if k = n then some v else assocFind l n := by
  induction l with
  | nil => by_cases h : k = n <;> simp [assocSet, assocFind, h]
  | cons p rest ih =>
    obtain ⟨k', v'⟩ := p
    by_cases h1 : k' = k
    · subst h1
      by_cases h2 : k' = n <;> simp [assocSet, assocFind, h2]
    · by_cases h2 : k' = n
      · subst h2
        have hkn : ¬k = k' := fun he => h1 he.symm
        simp [assocSet, assocFind, h1, hkn]
      · simp [assocSet, assocFind, h1, h2, ih]

theorem assocFind_append_some {α β : Type} [DecidableEq α] {l : List (α × β)}
    (m : List (α × β)) {n : α} {v : β} (h : assocFind l n = some v) :
    assocFind (l ++ m) n = some v := by
  induction l with
  | nil => simp [assocFind] at h
  | cons p rest ih =>
    obtain ⟨k', v'⟩ := p
    by_cases hk : k' = n
    · simp only [assocFind, if_pos hk] at h ⊢
      exact h
    · simp only [assocFind, if_neg hk] at h ⊢
      exact ih h

theorem assocFind_append_none {α β : Type} [DecidableEq α] {l : List (α × β)}
    (m : List (α × β)) {n : α} (h : assocFind l n = none) :
    assocFind (l ++ m) n = assocFind m n := by
  induction l with
  | nil => simp [assocFind]
  | cons p rest ih =>
    obtain ⟨k', v'⟩ := p
    by_cases hk : k' = n
    · rw [assocFind, if_pos hk] at h
      cases h
    · simp only [assocFind, if_neg hk] at h ⊢
      exact ih h

theorem assocFind_assocAppend {α β : Type} [DecidableEq α] (l : List (α × List β))
    (k n : α) (vs : List β) :
    assocFind (assocAppend l k vs) n =
      if k = n then some ((assocFind l k).getD [] ++ vs) else assocFind l n := by
  unfold assocAppend
  cases h : assocFind l k with
  | some old =>
    rw [assocFind_assocSet]
    by_cases hk : k = n <;> simp [hk, h]
  | none =>
    by_cases hk : k = n
    · subst hk
      rw [assocFind_append_none _ h]
      simp [assocFind, h]
    · cases h2 : assocFind l n with
      | some w =>
        rw [assocFind_append_some _ h2]
        simp [hk]
      | none =>
        rw [assocFind_append_none _ h2]
        simp [assocFind, hk]

theorem addInterfacesFor_base_fields (t : Definition) :
    ∀ (l : List NamedRef) (tm : TypeMap),
      ((l.foldl (fun acc iface =>
        { acc with
          interfaceImplementations :=
            assocAppend acc.interfaceImplementations iface.name [t.name] }) tm)).types
          = tm.types ∧
      ((l.foldl (fun acc iface =>
        { acc with
          interfaceImplementations :=
            assocAppend acc.interfaceImplementations iface.name [t.name] }) tm)).typeExtensions
          = tm.typeExtensions := by
  intro l
  induction l with
  | nil => intro tm; exact ⟨rfl, rfl⟩
  | cons ifc rest ih =>
    intro tm
    simpa using ih _

theorem addInterfacesFor_types (tm : TypeMap) (t : Definition) :
    (tm.addInterfacesFor t).types = tm.types :=
  (addInterfacesFor_base_fields t t.interfaces tm).1

theorem addInterfacesFor_typeExtensions (tm : TypeMap) (t : Definition) :
    (tm.addInterfacesFor t).typeExtensions = tm.typeExtensions :=
  (addInterfacesFor_base_fields t t.interfaces tm).2

theorem getType_addType_cases (tm : TypeMap) (t : Definition) (n : String) (d : Definition)
    (h : (tm.addType t).getType n = some d) :
    (d = t ∧ t.name = n ∧ extensionType t.kind = false ∧ isTypeDefinitionKind t.kind = true) ∨
      tm.getType n = some d := by
  simp only [TypeMap.addType] at h
  by_cases hs1 : t.kind = Kind.schemaDefinition
  · right
    simp only [if_pos hs1] at h
    exact h
  simp only [if_neg hs1] at h
  by_cases hs2 : t.kind = Kind.schemaExtension
  · right
    simp only [if_pos hs2] at h
    exact h
  simp only [if_neg hs2] at h
  have htypes : (if (decide (t.kind = Kind.objectTypeDefinition) ||
      decide (t.kind = Kind.objectTypeExtension)) = true then
        tm.addInterfacesFor t else tm).types = tm.types := by
    split
    · exact addInterfacesFor_types tm t
    · rfl
  by_cases he : extensionType t.kind = true
  · right
    simp only [if_pos he] at h
    simp only [TypeMap.getType] at h ⊢
    rwa [htypes] at h
  simp only [if_neg he] at h
  by_cases hd : isTypeDefinitionKind t.kind = true
  · simp only [if_pos hd] at h
    simp only [TypeMap.getType] at h ⊢
    rw [htypes, assocFind_assocSet] at h
    by_cases hn : t.name = n
    · rw [if_pos hn] at h
      injection h with h2
      exact Or.inl ⟨h2.symm, hn, by simpa using he, hd⟩
    · rw [if_neg hn] at h
      exact Or.inr h
  · right
    simp only [if_neg hd] at h
    simp only [TypeMap.getType] at h ⊢
    rwa [htypes] at h

theorem getType_build {defs : List Definition} {n : String} {d : Definition}
    (h : (TypeMap.build defs).getType n = some d) :
    d.name = n ∧ extensionType d.kind = false ∧ isTypeDefinitionKind d.kind = true := by
  suffices H : ∀ (l : List Definition) (tm : TypeMap),
      (∀ m e, tm.getType m = some e →
        e.name = m ∧ extensionType e.kind = false ∧ isTypeDefinitionKind e.kind = true) →
      ∀ m e, (l.foldl TypeMap.addType tm).getType m = some e →
        e.name = m ∧ extensionType e.kind = false ∧ isTypeDefinitionKind e.kind = true by
    refine H defs {} ?_ n d h
    intro m e he
    simp [TypeMap.getType, assocFind] at he
  intro l
  induction l with
  | nil => intro tm hinv m e he; exact hinv m e he
  | cons t rest ih =>
    intro tm hinv m e he
    refine ih _ ?_ m e he
    intro m' e' he'
    rcases getType_addType_cases tm t m' e' he' with ⟨rfl, hn, h1, h2⟩ | hold
    · exact ⟨hn, h1, h2⟩
    · exact hinv m' e' hold

theorem getTypeExtensions_addType_cases (tm : TypeMap) (t : Definition) (n : String)
    (e : Definition) (h : e ∈ (tm.addType t).getTypeExtensions n) :
    (e = t ∧ t.name = n ∧ extensionType t.kind = true) ∨ e ∈ tm.getTypeExtensions n := by
  simp only [TypeMap.addType] at h
  by_cases hs1 : t.kind = Kind.schemaDefinition
  · right
    simp only [if_pos hs1] at h
    exact h
  simp only [if_neg hs1] at h
  by_cases hs2 : t.kind = Kind.schemaExtension
  · right
    simp only [if_pos hs2] at h
    exact h
  simp only [if_neg hs2] at h
  have hexts : (if (decide (t.kind = Kind.objectTypeDefinition) ||
      decide (t.kind = Kind.objectTypeExtension)) = true then
        tm.addInterfacesFor t else tm).typeExtensions = tm.typeExtensions := by
    split
    · exact addInterfacesFor_typeExtensions tm t
    · rfl
  by_cases he : extensionType t.kind = true
  · simp only [if_pos he] at h
    simp only [TypeMap.getTypeExtensions] at h ⊢
    rw [hexts, assocFind_assocAppend] at h
    by_cases hn : t.name = n
    · rw [if_pos hn] at h
      simp only [Option.getD_some] at h
      rcases List.mem_append.mp h with hin | hin
      · exact Or.inr (by rw [← hn]; simpa using hin)
      · simp only [List.mem_singleton] at hin
        exact Or.inl ⟨hin, hn, he⟩
    · rw [if_neg hn] at h
      exact Or.inr h
  simp only [if_neg he] at h
  by_cases hd : isTypeDefinitionKind t.kind = true
  · right
    simp only [if_pos hd] at h
    simp only [TypeMap.getTypeExtensions] at h ⊢
    rwa [hexts] at h
  · right
    simp only [if_neg hd] at h
    simp only [TypeMap.getTypeExtensions] at h ⊢
    rwa [hexts] at h

theorem getTypeExtensions_build {defs : List Definition} {n : String} {e : Definition}
    (h : e ∈ (TypeMap.build defs).getTypeExtensions n) :
    extensionType e.kind = true ∧ e.name = n := by
  suffices H : ∀ (l : List Definition) (tm : TypeMap),
      (∀ m e', e' ∈ tm.getTypeExtensions m → extensionType e'.kind = true ∧ e'.name = m) →
      ∀ m e', e' ∈ (l.foldl TypeMap.addType tm).getTypeExtensions m →
        extensionType e'.kind = true ∧ e'.name = m by
    refine H defs {} ?_ n e h
    intro m e' he'
    simp [TypeMap.getTypeExtensions, assocFind] at he'
  intro l
  induction l with
  | nil => intro tm hinv m e' he'; exact hinv m e' he'
  | cons t rest ih =>
    intro tm hinv m e' he'
    refine ih _ ?_ m e' he'
    intro m' e'' he''
    rcases getTypeExtensions_addType_cases tm t m' e'' he'' with ⟨rfl, hn, hext⟩ | hold
    · exact ⟨hext, hn⟩
    · exact hinv m' e'' hold

theorem implFold_mono (t : Definition) :
    ∀ (l : List NamedRef) (tm : TypeMap) (i x : String),
      x ∈ tm.getImplementationsOf i →
      x ∈ ((l.foldl (fun acc iface =>
        { acc with
          interfaceImplementations :=
            assocAppend acc.interfaceImplementations iface.name [t.name] }) tm)).getImplementationsOf i := by
  intro l
  induction l with
  | nil => intro tm i x hx; exact hx
  | cons ifc rest ih =>
    intro tm i x hx
    refine ih _ i x ?_
    show x ∈ (assocFind (assocAppend tm.interfaceImplementations ifc.name [t.name]) i).getD []
    rw [assocFind_assocAppend]
    by_cases hn : ifc.name = i
    · rw [if_pos hn, Option.getD_some]
      subst hn
      exact List.mem_append.mpr (Or.inl hx)
    · rw [if_neg hn]
      exact hx

theorem implFold_self (t : Definition) :
    ∀ (l : List NamedRef) (tm : TypeMap) (i : String),
      i ∈ l.map NamedRef.name →
      t.name ∈ ((l.foldl (fun acc iface =>
        { acc with
          interfaceImplementations :=
            assocAppend acc.interfaceImplementations iface.name [t.name] }) tm)).getImplementationsOf i := by
  intro l
  induction l with
  | nil => intro tm i hi; simp at hi
  | cons ifc rest ih =>
    intro tm i hi
    by_cases hn : ifc.name = i
    · refine implFold_mono t rest _ i t.name ?_
      show t.name ∈ (assocFind (assocAppend tm.interfaceImplementations ifc.name [t.name]) i).getD []
      rw [assocFind_assocAppend, if_pos hn, Option.getD_some]
      exact List.mem_append.mpr (Or.inr (List.mem_singleton.mpr rfl))
    · refine ih _ i ?_
      simp only [List.map_cons, List.mem_cons] at hi
      rcases hi with h1 | h1
      · exact absurd h1.symm hn
      · exact h1

theorem getImpls_addType_mono (tm : TypeMap) (t : Definition) (i x : String)
    (hx : x ∈ tm.getImplementationsOf i) :
    x ∈ (tm.addType t).getImplementationsOf i := by
  simp only [TypeMap.addType]
  by_cases hs1 : t.kind = Kind.schemaDefinition
  · simp only [if_pos hs1]
    exact hx
  simp only [if_neg hs1]
  by_cases hs2 : t.kind = Kind.schemaExtension
  · simp only [if_pos hs2]
    exact hx
  simp only [if_neg hs2]
  have hcore : x ∈ (if (decide (t.kind = Kind.objectTypeDefinition) ||
      decide (t.kind = Kind.objectTypeExtension)) = true then
        tm.addInterfacesFor t else tm).getImplementationsOf i := by
    split
    · exact implFold_mono t t.interfaces tm i x hx
    · exact hx
  by_cases he : extensionType t.kind = true
  · simp only [if_pos he]
    exact hcore
  simp only [if_neg he]
  by_cases hd : isTypeDefinitionKind t.kind = true
  · simp only [if_pos hd]
    exact hcore
  · simp only [if_neg hd]
    exact hcore

theorem getImpls_addType_self (tm : TypeMap) (t : Definition) (i : String)
    (hk : t.kind = Kind.objectTypeDefinition ∨ t.kind = Kind.objectTypeExtension)
    (hi : i ∈ t.interfaces.map NamedRef.name) :
    t.name ∈ (tm.addType t).getImplementationsOf i := by
  have hs1 : ¬t.kind = Kind.schemaDefinition := by
    rcases hk with h | h <;> simp [h]
  have hs2 : ¬t.kind = Kind.schemaExtension := by
    rcases hk with h | h <;> simp [h]
  have hb : (decide (t.kind = Kind.objectTypeDefinition) ||
      decide (t.kind = Kind.objectTypeExtension)) = true := by
    rcases hk with h | h <;> simp [h]
  simp only [TypeMap.addType, if_neg hs1, if_neg hs2, if_pos hb]
  have hcore : t.name ∈ (tm.addInterfacesFor t).getImplementationsOf i :=
    implFold_self t t.interfaces tm i hi
  by_cases he : extensionType t.kind = true
  · simp only [if_pos he]
    exact hcore
  simp only [if_neg he]
  by_cases hd : isTypeDefinitionKind t.kind = true
  · simp only [if_pos hd]
    exact hcore
  · simp only [if_neg hd]
    exact hcore

theorem getImpls_foldl_mono (l : List Definition) (tm : TypeMap) (i x : String)
    (hx : x ∈ tm.getImplementationsOf i) :
    x ∈ (l.foldl TypeMap.addType tm).getImplementationsOf i := by
  induction l generalizing tm with
  | nil => exact hx
  | cons t rest ih => exact ih _ (getImpls_addType_mono tm t i x hx)

theorem getImpls_build {defs : List Definition} {o : Definition} {i : String}
    (ho : o ∈ defs)
    (hk : o.kind = Kind.objectTypeDefinition ∨ o.kind = Kind.objectTypeExtension)
    (hi : i ∈ o.interfaces.map NamedRef.name) :
    o.name ∈ (TypeMap.build defs).getImplementationsOf i := by
  suffices H : ∀ (l : List Definition) (tm : TypeMap), o ∈ l →
      o.name ∈ (l.foldl TypeMap.addType tm).getImplementationsOf i by
    exact H defs {} ho
  intro l
  induction l with
  | nil => intro tm h; simp at h
  | cons t rest ih =>
    intro tm h
    rcases List.mem_cons.mp h with rfl | h2
    · exact getImpls_foldl_mono rest _ i o.name (getImpls_addType_self tm o i hk hi)
    · exact ih _ h2

theorem traverse_prefix (tm : TypeMap) :
    ∀ (fuel : Nat) (visited stack v : List String),
      traverseDeps tm fuel visited stack = some v → ∃ w, v = visited ++ w := by
  intro fuel
  induction fuel with
  | zero => intro visited stack v h; simp [traverseDeps] at h
  | succ fu ih =>
    intro visited stack v h
    cases stack with
    | nil =>
      simp only [traverseDeps, Option.some.injEq] at h
      exact ⟨[], by simp [← h]⟩
    | cons t rest =>
      simp only [traverseDeps] at h
      cases hd : tm.getType t with
      | some d =>
        simp only [hd] at h
        by_cases hv : visited.contains t = true
        · rw [if_pos hv] at h
          exact ih _ _ _ h
        · rw [if_neg hv] at h
          obtain ⟨w, hw⟩ := ih _ _ _ h
          exact ⟨t :: w, by simp [hw]⟩
      | none =>
        simp only [hd] at h
        exact ih _ _ _ h

theorem traverse_mono (tm : TypeMap) (fuel : Nat) (visited stack v : List String)
    (h : traverseDeps tm fuel visited stack = some v) :
    ∀ n ∈ visited, n ∈ v := by
  obtain ⟨w, hw⟩ := traverse_prefix tm fuel visited stack v h
  intro n hn
  exact hw ▸ List.mem_append.mpr (Or.inl hn)

theorem traverse_stack_mem (tm : TypeMap) :
    ∀ (fuel : Nat) (visited stack v : List String),
      traverseDeps tm fuel visited stack = some v →
      ∀ n ∈ stack, (tm.getType n).isSome → n ∈ v := by
  intro fuel
  induction fuel with
  | zero => intro visited stack v h; simp [traverseDeps] at h
  | succ fu ih =>
    intro visited stack v h n hn hdef
    cases stack with
    | nil => simp at hn
    | cons t rest =>
      simp only [traverseDeps] at h
      cases hd : tm.getType t with
      | some d =>
        simp only [hd] at h
        by_cases hv : visited.contains t = true
        · rw [if_pos hv] at h
          rcases List.mem_cons.mp hn with rfl | hrest
          · have hmem : n ∈ visited := by simpa using hv
            exact traverse_mono tm _ _ _ _ h n hmem
          · exact ih _ _ _ h n (mem_pushAll.mpr (Or.inr hrest)) hdef
        · rw [if_neg hv] at h
          rcases List.mem_cons.mp hn with rfl | hrest
          · have hmem : n ∈ visited ++ [n] := List.mem_append.mpr (Or.inr (by simp))
            exact traverse_mono tm _ _ _ _ h n hmem
          · exact ih _ _ _ h n (mem_pushAll.mpr (Or.inr (mem_pushAll.mpr (Or.inr hrest)))) hdef
      | none =>
        simp only [hd] at h
        rcases List.mem_cons.mp hn with rfl | hrest
        · rw [hd] at hdef
          simp at hdef
        · exact ih _ _ _ h n (mem_pushAll.mpr (Or.inr hrest)) hdef

theorem traverse_nodup (tm : TypeMap) :
    ∀ (fuel : Nat) (visited stack v : List String),
      traverseDeps tm fuel visited stack = some v → visited.Nodup → v.Nodup := by
  intro fuel
  induction fuel with
  | zero => intro visited stack v h; simp [traverseDeps] at h
  | succ fu ih =>
    intro visited stack v h hnd
    cases stack with
    | nil =>
      simp only [traverseDeps, Option.some.injEq] at h
      exact h ▸ hnd
    | cons t rest =>
      simp only [traverseDeps] at h
      cases hd : tm.getType t with
      | some d =>
        simp only [hd] at h
        by_cases hv : visited.contains t = true
        · rw [if_pos hv] at h
          exact ih _ _ _ h hnd
        · rw [if_neg hv] at h
          refine ih _ _ _ h ?_
          have hnot : t ∉ visited := by simpa using hv
          simp [List.nodup_append, hnd, hnot]
      | none =>
        simp only [hd] at h
        exact ih _ _ _ h hnd

theorem traverse_keeps_hasdef (tm : TypeMap) :
    ∀ (fuel : Nat) (visited stack v : List String),
      traverseDeps tm fuel visited stack = some v →
      (∀ n ∈ visited, (tm.getType n).isSome) →
      ∀ n ∈ v, (tm.getType n).isSome := by
  intro fuel
  induction fuel with
  | zero => intro visited stack v h; simp [traverseDeps] at h
  | succ fu ih =>
    intro visited stack v h hvis
    cases stack with
    | nil =>
      simp only [traverseDeps, Option.some.injEq] at h
      exact h ▸ hvis
    | cons t rest =>
      simp only [traverseDeps] at h
      cases hd : tm.getType t with
      | some d =>
        simp only [hd] at h
        by_cases hv : visited.contains t = true
        · rw [if_pos hv] at h
          exact ih _ _ _ h hvis
        · rw [if_neg hv] at h
          refine ih _ _ _ h ?_
          intro n hn
          rcases List.mem_append.mp hn with h1 | h1
          · exact hvis n h1
          · simp only [List.mem_singleton] at h1
            subst h1
            simp [hd]
      | none =>
        simp only [hd] at h
        exact ih _ _ _ h hvis

theorem traverseDeps_closed (tm : TypeMap) :
    ∀ (fuel : Nat) (visited stack v : List String),
      traverseDeps tm fuel visited stack = some v →
      (∀ n ∈ visited, ∀ d ∈ expandAll tm n, (tm.getType d).isSome → d ∈ visited ∨ d ∈ stack) →
      ∀ n ∈ v, ∀ d ∈ expandAll tm n, (tm.getType d).isSome → d ∈ v := by
  intro fuel
  induction fuel with
  | zero => intro visited stack v h; simp [traverseDeps] at h
  | succ fu ih =>
    intro visited stack v h hinv
    cases stack with
    | nil =>
      simp only [traverseDeps, Option.some.injEq] at h
      subst h
      intro n hn d hd hds
      rcases hinv n hn d hd hds with h1 | h1
      · exact h1
      · simp at h1
    | cons t rest =>
      simp only [traverseDeps] at h
      cases hget : tm.getType t with
      | some dt =>
        simp only [hget] at h
        by_cases hv : visited.contains t = true
        · rw [if_pos hv] at h
          refine ih _ _ _ h ?_
          intro n hn d hd hds
          rcases hinv n hn d hd hds with h1 | h1
          · exact Or.inl h1
          · rcases List.mem_cons.mp h1 with rfl | h2
            · exact Or.inl (by simpa using hv)
            · exact Or.inr (mem_pushAll.mpr (Or.inr h2))
        · rw [if_neg hv] at h
          refine ih _ _ _ h ?_
          intro n hn d hd hds
          rcases List.mem_append.mp hn with hnv | hnt
          · rcases hinv n hnv d hd hds with h1 | h1
            · exact Or.inl (List.mem_append.mpr (Or.inl h1))
            · rcases List.mem_cons.mp h1 with rfl | h2
              · exact Or.inl (List.mem_append.mpr (Or.inr (by simp)))
              · exact Or.inr (mem_pushAll.mpr (Or.inr (mem_pushAll.mpr (Or.inr h2))))
          · simp only [List.mem_singleton] at hnt
            subst hnt
            simp only [expandAll, hget] at hd
            rcases List.mem_append.mp hd with h1 | h1
            · exact Or.inr (mem_pushAll.mpr (Or.inr (mem_pushAll.mpr (Or.inl h1))))
            · exact Or.inr (mem_pushAll.mpr (Or.inl h1))
      | none =>
        simp only [hget] at h
        refine ih _ _ _ h ?_
        intro n hn d hd hds
        rcases hinv n hn d hd hds with h1 | h1
        · exact Or.inl h1
        · rcases List.mem_cons.mp h1 with rfl | h2
          · rw [hget] at hds
            simp at hds
          · exact Or.inr (mem_pushAll.mpr (Or.inr h2))

theorem traverseDeps_closed_root (tm : TypeMap) (fuel : Nat) (seeds v : List String)
    (h : traverseDeps tm fuel [] seeds = some v) :
    ∀ n ∈ v, ∀ d ∈ expandAll tm n, (tm.getType d).isSome → d ∈ v := by
  refine traverseDeps_closed tm fuel [] seeds v h ?_
  intro n hn
  simp at hn

theorem addExtensionsFold_ext (push : Bool) :
    ∀ (exts : List Definition) (added : List (Kind × String)) (toAdd : List Definition),
      (∀ e ∈ exts, extensionType e.kind = true) →
      addExtensionsFold push exts added toAdd =
        (added, if push = true then toAdd ++ exts else exts.reverse ++ toAdd) := by
  intro exts
  induction exts with
  | nil =>
    intro added toAdd hext
    cases push <;> simp [addExtensionsFold]
  | cons e rest ih =>
    intro added toAdd hext
    have he : extensionType e.kind = true := hext e (by simp)
    have hrest : ∀ e' ∈ rest, extensionType e'.kind = true :=
      fun e' h' => hext e' (by simp [h'])
    rw [addExtensionsFold, if_neg (by simp [he])]
    cases push with
    | true => simp [ih _ _ hrest]
    | false => simp [ih _ _ hrest]

theorem addExtensionsFold_toAdd_mono (push : Bool) :
    ∀ (exts : List Definition) (added : List (Kind × String)) (toAdd : List Definition)
      (x : Definition), x ∈ toAdd → x ∈ (addExtensionsFold push exts added toAdd).2 := by
  intro exts
  induction exts with
  | nil => intro added toAdd x hx; exact hx
  | cons e rest ih =>
    intro added toAdd x hx
    rw [addExtensionsFold]
    by_cases hne : extensionType e.kind = false
    · rw [if_pos hne]
      by_cases hc : added.contains (e.kind, e.name) = true
      · rw [if_pos hc]
        exact ih _ _ x hx
      · rw [if_neg hc]
        cases push with
        | true => simpa using ih _ _ x (by simp [hx])
        | false => simpa using ih _ _ x (by simp [hx])
    · rw [if_neg hne]
      cases push with
      | true => simpa using ih _ _ x (by simp [hx])
      | false => simpa using ih _ _ x (by simp [hx])

theorem selectStep_acc_mono (tm : TypeMap) (added : List (Kind × String))
    (defsAcc : List Definition) (t : String) (x : Definition) (hx : x ∈ defsAcc) :
    x ∈ (selectStep tm (added, defsAcc) t).2 := by
  simp only [selectStep]
  cases hget : tm.getType t with
  | some dt =>
    simp only [hget]
    by_cases hc : added.contains (dt.kind, t) = true
    · rw [if_pos hc]
      exact hx
    · rw [if_neg hc]
      exact List.mem_append.mpr (Or.inr hx)
  | none =>
    simp only [hget]
    exact List.mem_append.mpr (Or.inr hx)

theorem selectFold_acc_mono (tm : TypeMap) :
    ∀ (l : List String) (added : List (Kind × String)) (defsAcc : List Definition)
      (x : Definition), x ∈ defsAcc → x ∈ (l.foldl (selectStep tm) (added, defsAcc)).2 := by
  intro l
  induction l with
  | nil => intro added defsAcc x hx; exact hx
  | cons t rest ih =>
    intro added defsAcc x hx
    rw [List.foldl_cons]
    have h1 : x ∈ (selectStep tm (added, defsAcc) t).2 := selectStep_acc_mono tm _ _ t x hx
    have h2 : selectStep tm (added, defsAcc) t =
        ((selectStep tm (added, defsAcc) t).1, (selectStep tm (added, defsAcc) t).2) := rfl
    rw [h2]
    exact ih _ _ x h1

theorem selectStep_added_cases (tm : TypeMap) (added : List (Kind × String))
    (defsAcc : List Definition) (t : String)
    (hext : ∀ e ∈ tm.getTypeExtensions t, extensionType e.kind = true) :
    (selectStep tm (added, defsAcc) t).1 = added ∨
    (∃ dt, tm.getType t = some dt ∧ ¬added.contains (dt.kind, t) = true ∧
      (selectStep tm (added, defsAcc) t).1 = (dt.kind, t) :: added) := by
  simp only [selectStep]
  cases hget : tm.getType t with
  | some dt =>
    simp only [hget]
    by_cases hc : added.contains (dt.kind, t) = true
    · rw [if_pos hc]
      exact Or.inl rfl
    · rw [if_neg hc]
      rw [addExtensionsFold_ext true _ _ _ hext]
      exact Or.inr ⟨dt, rfl, hc, rfl⟩
  | none =>
    simp only [hget]
    rw [addExtensionsFold_ext false _ _ _ hext]
    exact Or.inl rfl

theorem selectFold_retains (tm : TypeMap)
    (hext : ∀ m e, e ∈ tm.getTypeExtensions m → extensionType e.kind = true) :
    ∀ (l : List String) (added : List (Kind × String)) (defsAcc : List Definition),
      (∀ p ∈ added, ∃ m dm, tm.getType m = some dm ∧ p = (dm.kind, m) ∧ m ∉ l) →
      l.Nodup →
      ∀ n dn, n ∈ l → tm.getType n = some dn →
        dn ∈ (l.foldl (selectStep tm) (added, defsAcc)).2 := by
  intro l
  induction l with
  | nil =>
    intro added defsAcc hadded hnd n dn hn
    simp at hn
  | cons t rest ih =>
    intro added defsAcc hadded hnd n dn hn hget
    rw [List.foldl_cons]
    rcases List.mem_cons.mp hn with rfl | hrest
    · have hnotin : ¬added.contains (dn.kind, n) = true := by
        intro hc
        have hmem : (dn.kind, n) ∈ added := by simpa using hc
        obtain ⟨m, dm, hgm, hpm, hml⟩ := hadded _ hmem
        have hnm : n = m := congrArg Prod.snd hpm
        exact hml (hnm ▸ List.mem_cons_self _ _)
      have hstep : selectStep tm (added, defsAcc) n =
          ((addExtensionsFold true (tm.getTypeExtensions n) ((dn.kind, n) :: added) [dn]).1,
           (addExtensionsFold true (tm.getTypeExtensions n) ((dn.kind, n) :: added) [dn]).2
             ++ defsAcc) := by
        simp only [selectStep, hget]
        rw [if_neg hnotin]
      rw [hstep]
      refine selectFold_acc_mono tm rest _ _ dn ?_
      exact List.mem_append.mpr
        (Or.inl (addExtensionsFold_toAdd_mono true _ _ _ dn (by simp)))
    · have hsplit : selectStep tm (added, defsAcc) t =
          ((selectStep tm (added, defsAcc) t).1, (selectStep tm (added, defsAcc) t).2) := rfl
      rw [hsplit]
      refine ih _ _ ?_ (List.Nodup.of_cons hnd) n dn hrest hget
      intro p hp
      rcases selectStep_added_cases tm added defsAcc t (fun e he => hext t e he) with
        heq | ⟨dt, hgt, hcn, heq⟩
      · rw [heq] at hp
        obtain ⟨m, dm, h1, h2, h3⟩ := hadded p hp
        exact ⟨m, dm, h1, h2, fun hm => h3 (List.mem_cons_of_mem _ hm)⟩
      · rw [heq] at hp
        rcases List.mem_cons.mp hp with rfl | hp2
        · exact ⟨t, dt, hgt, rfl, (List.nodup_cons.mp hnd).1⟩
        · obtain ⟨m, dm, h1, h2, h3⟩ := hadded p hp2
          exact ⟨m, dm, h1, h2, fun hm => h3 (List.mem_cons_of_mem _ hm)⟩

theorem nonExtensionNames_cons_nonext {x : Definition} {xs : List Definition}
    (hx : extensionType x.kind = false) :
    nonExtensionNames (x :: xs) = x.name :: nonExtensionNames xs := by
  simp [nonExtensionNames, List.filter_cons, hx]

theorem nonExtensionNames_cons_ext {x : Definition} {xs : List Definition}
    (hx : extensionType x.kind = true) :
    nonExtensionNames (x :: xs) = nonExtensionNames xs := by
  simp [nonExtensionNames, List.filter_cons, hx]

theorem nonExtensionNames_allext {xs : List Definition}
    (h : ∀ e ∈ xs, extensionType e.kind = true) :
    nonExtensionNames xs = [] := by
  induction xs with
  | nil => rfl
  | cons e rest ih =>
    rw [nonExtensionNames_cons_ext (h e (by simp))]
    exact ih fun e' h' => h e' (by simp [h'])

theorem nonExtensionNames_append (l m : List Definition) :
    nonExtensionNames (l ++ m) = nonExtensionNames l ++ nonExtensionNames m := by
  simp [nonExtensionNames, List.filter_append]

theorem addExtensionsFold_ext_true {exts : List Definition}
    (hext : ∀ e ∈ exts, extensionType e.kind = true) (added : List (Kind × String))
    (toAdd : List Definition) :
    addExtensionsFold true exts added toAdd = (added, toAdd ++ exts) := by
  rw [addExtensionsFold_ext true exts added toAdd hext]
  simp

theorem addExtensionsFold_ext_false {exts : List Definition}
    (hext : ∀ e ∈ exts, extensionType e.kind = true) (added : List (Kind × String))
    (toAdd : List Definition) :
    addExtensionsFold false exts added toAdd = (added, exts.reverse ++ toAdd) := by
  rw [addExtensionsFold_ext false exts added toAdd hext]
  simp

theorem selectFold_nonext_nodup (tm : TypeMap)
    (hext : ∀ m e, e ∈ tm.getTypeExtensions m → extensionType e.kind = true)
    (hty : ∀ m e, tm.getType m = some e → e.name = m)
    (hty2 : ∀ m e, tm.getType m = some e → extensionType e.kind = false) :
    ∀ (l : List String) (added : List (Kind × String)) (defsAcc : List Definition),
      l.Nodup →
      (∀ x ∈ defsAcc, extensionType x.kind = false → x.name ∉ l) →
      (nonExtensionNames defsAcc).Nodup →
      (nonExtensionNames (l.foldl (selectStep tm) (added, defsAcc)).2).Nodup := by
  intro l
  induction l with
  | nil => intro added defsAcc hnd hacc hnodup; exact hnodup
  | cons t rest ih =>
    intro added defsAcc hnd hacc hnodup
    rw [List.foldl_cons]
    have hsplit : selectStep tm (added, defsAcc) t =
        ((selectStep tm (added, defsAcc) t).1, (selectStep tm (added, defsAcc) t).2) := rfl
    rw [hsplit]
    have hnames : ∀ x ∈ (selectStep tm (added, defsAcc) t).2,
        extensionType x.kind = false → x.name ∉ rest := by
      intro x hx hxe
      simp only [selectStep] at hx
      cases hget : tm.getType t with
      | some dt =>
        simp only [hget] at hx
        by_cases hc : added.contains (dt.kind, t) = true
        · rw [if_pos hc] at hx
          exact fun hm => hacc x hx hxe (List.mem_cons_of_mem _ hm)
        · rw [if_neg hc] at hx
          rw [addExtensionsFold_ext_true (fun e he => hext t e he)] at hx
          dsimp only at hx
          rcases List.mem_append.mp hx with h1 | h1
          · rcases List.mem_append.mp h1 with h2 | h2
            · rcases List.mem_singleton.mp h2 with rfl
              rw [hty t x hget]
              exact (List.nodup_cons.mp hnd).1
            · rw [hext t x h2] at hxe
              cases hxe
          · exact fun hm => hacc x h1 hxe (List.mem_cons_of_mem _ hm)
      | none =>
        simp only [hget] at hx
        rw [addExtensionsFold_ext_false (fun e he => hext t e he)] at hx
        simp only [List.append_nil] at hx
        rcases List.mem_append.mp hx with h1 | h1
        · rw [hext t x (List.mem_reverse.mp h1)] at hxe
          cases hxe
        · exact fun hm => hacc x h1 hxe (List.mem_cons_of_mem _ hm)
    have hnodup2 : (nonExtensionNames (selectStep tm (added, defsAcc) t).2).Nodup := by
      simp only [selectStep]
      cases hget : tm.getType t with
      | some dt =>
        simp only [hget]
        by_cases hc : added.contains (dt.kind, t) = true
        · rw [if_pos hc]
          exact hnodup
        · rw [if_neg hc]
          rw [addExtensionsFold_ext_true (fun e he => hext t e he)]
          dsimp only
          have h1 : nonExtensionNames (([dt] ++ tm.getTypeExtensions t) ++ defsAcc) =
              dt.name :: nonExtensionNames defsAcc := by
            simp only [List.singleton_append]
            rw [nonExtensionNames_append, nonExtensionNames_cons_nonext (hty2 t dt hget),
              nonExtensionNames_allext (fun e he => hext t e he)]
            simp
          rw [h1, List.nodup_cons]
          constructor
          · intro hmem
            simp only [nonExtensionNames, List.mem_map] at hmem
            obtain ⟨x, hxf, hxn⟩ := hmem
            rcases List.mem_filter.mp hxf with ⟨hxm, hxe⟩
            have hxe2 : extensionType x.kind = false := by simpa using hxe
            have hni := hacc x hxm hxe2
            rw [hxn, hty t dt hget] at hni
            exact hni (List.mem_cons_self _ _)
          · exact hnodup
      | none =>
        simp only [hget]
        rw [addExtensionsFold_ext_false (fun e he => hext t e he)]
        dsimp only
        rw [List.append_nil, nonExtensionNames_append,
          nonExtensionNames_allext (fun e he => hext t e (List.mem_reverse.mp he))]
        simpa using hnodup
    exact ih _ _ (List.Nodup.of_cons hnd) hnames hnodup2

theorem pairwise_of_nonext_nodup :
    ∀ (l : List Definition), (nonExtensionNames l).Nodup →
      l.Pairwise (fun a b => extensionType a.kind = false → extensionType b.kind = false →
        ¬(a.kind = b.kind ∧ a.name = b.name)) := by
  intro l
  induction l with
  | nil => intro _h; exact List.Pairwise.nil
  | cons x xs ih =>
    intro h
    by_cases hx : extensionType x.kind = false
    · rw [nonExtensionNames_cons_nonext hx] at h
      rcases List.nodup_cons.mp h with ⟨hnotin, hrest⟩
      refine List.Pairwise.cons ?_ (ih hrest)
      intro b hb _hxf hbf hcon
      apply hnotin
      rw [hcon.2]
      exact List.mem_map.mpr ⟨b, List.mem_filter.mpr ⟨hb, by simp [hbf]⟩, rfl⟩
    · have hx2 : extensionType x.kind = true := by simpa using hx
      rw [nonExtensionNames_cons_ext hx2] at h
      refine List.Pairwise.cons ?_ (ih h)
      intro b _hb hxf
      exact absurd hxf hx

theorem getTypeMapFor_WF {s : FilterState} (hWF : s.WF) (defs : List Definition) :
    (getTypeMapFor s defs).1 = TypeMap.build defs ∧ (getTypeMapFor s defs).2.WF := by
  unfold getTypeMapFor
  cases h : assocFind s.typeMaps defs with
  | some tm =>
    refine ⟨?_, ?_⟩
    · exact hWF _ (assocFind_mem h)
    · exact hWF
  | none =>
    refine ⟨rfl, ?_⟩
    intro p hp
    rcases List.mem_append.mp hp with h1 | h1
    · exact hWF p h1
    · rcases List.mem_singleton.mp h1 with rfl
      rfl

theorem filter_eq_filterPure {s : FilterState} (hWF : s.WF) (document : Document)
    (otherDependencies : List Definition) (types : List String) (fuel : Nat) :
    (DocumentDefinitionFilter.filter s document otherDependencies types fuel).map Prod.fst =
      filterPure document otherDependencies types fuel := by
  obtain ⟨h1, _h2⟩ := getTypeMapFor_WF hWF (otherDependencies ++ document.definitions)
  simp only [DocumentDefinitionFilter.filter, filterPure]
  rw [h1]
  cases htrav : traverseDeps (TypeMap.build (otherDependencies ++ document.definitions))
      fuel [] types.reverse with
  | none => simp [htrav]
  | some visited => simp [htrav]

theorem filter_WF {s : FilterState} (hWF : s.WF) (document : Document)
    (otherDependencies : List Definition) (types : List String) (fuel : Nat)
    (doc : Document) (s' : FilterState)
    (h : DocumentDefinitionFilter.filter s document otherDependencies types fuel =
      some (doc, s')) : s'.WF := by
  obtain ⟨h1, h2⟩ := getTypeMapFor_WF hWF (otherDependencies ++ document.definitions)
  simp only [DocumentDefinitionFilter.filter] at h
  cases htrav : traverseDeps
      (getTypeMapFor s (otherDependencies ++ document.definitions)).1
      fuel [] types.reverse with
  | none => rw [htrav] at h; cases h
  | some visited =>
    rw [htrav] at h
    injection h with h3
    have hs : s' = (getTypeMapFor s (otherDependencies ++ document.definitions)).2 :=
      (congrArg Prod.snd h3).symm
    rw [hs]
    exact h2

/-- C6: the dependency traversal obtains the dependency name of a field or
argument by stripping List and NonNull wrapper layers repeatedly, through
arbitrarily deep nesting, until the underlying named type is reached, and
the name contributed to the work list is that innermost named type's name. -/
theorem c6_unwrap_nested (ws : List WrapKind) (n : String) (node : Definition)
    (field : FieldDef) (hf : field ∈ node.fields)
    (ht : field.type = applyWrappers ws (TypeNode.namedType n))
    (hb : isBuiltInType n = false) :
    unwrapTypeNameFrom (applyWrappers ws (TypeNode.namedType n)) = n ∧
    n ∈ addFieldTypes node := by
  have hun : ∀ ws' : List WrapKind,
      unwrapTypeNameFrom (applyWrappers ws' (TypeNode.namedType n)) = n := by
    intro ws'
    induction ws' with
    | nil => rfl
    | cons w rest ih => cases w <;> simpa [applyWrappers, unwrapTypeNameFrom] using ih
  have hmem : n ∈ fieldDeps field := by
    simp only [fieldDeps, ht, hun ws, hb]
    simp
  exact ⟨hun ws, List.mem_flatMap.mpr ⟨field, hf, hmem⟩⟩

theorem c6_unwrap_nested_witness :
    unwrapTypeNameFrom (applyWrappers [WrapKind.listWrap, WrapKind.nonNullWrap]
      (TypeNode.namedType "T")) = "T" ∧
    "T" ∈ addFieldTypes ⟨Kind.objectTypeDefinition, "A", [], [],
      [⟨"f", none, applyWrappers [WrapKind.listWrap, WrapKind.nonNullWrap]
        (TypeNode.namedType "T"), []⟩], [], []⟩ :=
  c6_unwrap_nested [WrapKind.listWrap, WrapKind.nonNullWrap] "T"
    ⟨Kind.objectTypeDefinition, "A", [], [],
      [⟨"f", none, applyWrappers [WrapKind.listWrap, WrapKind.nonNullWrap]
        (TypeNode.namedType "T"), []⟩], [], []⟩
    ⟨"f", none, applyWrappers [WrapKind.listWrap, WrapKind.nonNullWrap]
      (TypeNode.namedType "T"), []⟩
    (by decide) rfl (by decide)

/-- C9: calling CachedGraphqlParser.parse a second time with the same file
path on the same instance returns the same document as the first call
without re-parsing: the second result is independent of the parse function
and the contents passed then, and the hit path leaves the state untouched,
so it cannot fail. -/
theorem c9_parser_cache (gp1 gp2 : String → Document) (s : ParserState)
    (filePath contents1 contents2 : String) :
    (CachedGraphqlParser.parse gp2
        (CachedGraphqlParser.parse gp1 s filePath contents1).2 filePath contents2).1 =
      (CachedGraphqlParser.parse gp1 s filePath contents1).1 ∧
    (CachedGraphqlParser.parse gp2
        (CachedGraphqlParser.parse gp1 s filePath contents1).2 filePath contents2).2 =
      (CachedGraphqlParser.parse gp1 s filePath contents1).2 := by
  cases h : assocFind s.cache filePath with
  | some d =>
    have h1 : CachedGraphqlParser.parse gp1 s filePath contents1 = (d, s) := by
      simp [CachedGraphqlParser.parse, h]
    rw [h1]
    simp [CachedGraphqlParser.parse, h]
  | none =>
    have h1 : CachedGraphqlParser.parse gp1 s filePath contents1 =
        (gp1 contents1, ⟨assocSet s.cache filePath (gp1 contents1)⟩) := by
      simp [CachedGraphqlParser.parse, h]
    rw [h1]
    have h2 : assocFind (assocSet s.cache filePath (gp1 contents1)) filePath =
        some (gp1 contents1) := by
      rw [assocFind_assocSet]
      simp
    simp [CachedGraphqlParser.parse, h2]

/-- C2: calling DocumentDefinitionFilter.filter twice on the same filter
instance with the same arguments yields the identical pruned document both
times: the second call, run on the state the first call returned, produces
the same output document. -/
theorem c2_filter_idempotent (s : FilterState) (hWF : s.WF) (document : Document)
    (otherDependencies : List Definition) (types : List String) (fuel : Nat)
    (doc1 : Document) (s1 : FilterState)
    (h : DocumentDefinitionFilter.filter s document otherDependencies types fuel =
      some (doc1, s1)) :
    (DocumentDefinitionFilter.filter s1 document otherDependencies types fuel).map
      Prod.fst = some doc1 := by
  have hWF1 : s1.WF := filter_WF hWF document otherDependencies types fuel doc1 s1 h
  rw [filter_eq_filterPure hWF1]
  have heq := filter_eq_filterPure hWF document otherDependencies types fuel
  rw [h] at heq
  simpa using heq.symm

/-- C8: DocumentDefinitionFilter.filter is deterministic given the document,
the merged-in dependencies and the requested names: with any well-formed
instance state its output is the pure function of those arguments alone, so
two instances (or the same instance in different states) return the same
newly built pruned document, and the inputs are plain values the embedding
never alters. -/
theorem c8_filter_deterministic (s1 s2 : FilterState) (h1 : s1.WF) (h2 : s2.WF)
    (document : Document) (otherDependencies : List Definition) (types : List String)
    (fuel : Nat) :
    (DocumentDefinitionFilter.filter s1 document otherDependencies types fuel).map
        Prod.fst = filterPure document otherDependencies types fuel ∧
    (DocumentDefinitionFilter.filter s1 document otherDependencies types fuel).map
        Prod.fst =
      (DocumentDefinitionFilter.filter s2 document otherDependencies types fuel).map
        Prod.fst := by
  refine ⟨filter_eq_filterPure h1 document otherDependencies types fuel, ?_⟩
  rw [filter_eq_filterPure h1, filter_eq_filterPure h2]

theorem c2_filter_idempotent_witness :
    (DocumentDefinitionFilter.filter
        ((DocumentDefinitionFilter.filter ⟨[]⟩
          ⟨[⟨Kind.objectTypeDefinition, "A", [], [], [], [], []⟩]⟩ [] ["A"] 3).getD
            (⟨[]⟩, ⟨[]⟩)).2
        ⟨[⟨Kind.objectTypeDefinition, "A", [], [], [], [], []⟩]⟩ [] ["A"] 3).map Prod.fst =
      some ((DocumentDefinitionFilter.filter ⟨[]⟩
        ⟨[⟨Kind.objectTypeDefinition, "A", [], [], [], [], []⟩]⟩ [] ["A"] 3).getD
          (⟨[]⟩, ⟨[]⟩)).1 :=
  c2_filter_idempotent ⟨[]⟩ (by intro p hp; cases hp)
    ⟨[⟨Kind.objectTypeDefinition, "A", [], [], [], [], []⟩]⟩ [] ["A"] 3
    _ _ (by rfl)

theorem c8_filter_deterministic_witness :
    (DocumentDefinitionFilter.filter ⟨[]⟩
        ⟨[⟨Kind.objectTypeDefinition, "B", [], [], [], [], []⟩]⟩ [] ["B"] 3).map Prod.fst =
      filterPure ⟨[⟨Kind.objectTypeDefinition, "B", [], [], [], [], []⟩]⟩ [] ["B"] 3 ∧
    (DocumentDefinitionFilter.filter ⟨[]⟩
        ⟨[⟨Kind.objectTypeDefinition, "B", [], [], [], [], []⟩]⟩ [] ["B"] 3).map Prod.fst =
      (DocumentDefinitionFilter.filter ⟨[([], TypeMap.build [])]⟩
        ⟨[⟨Kind.objectTypeDefinition, "B", [], [], [], [], []⟩]⟩ [] ["B"] 3).map Prod.fst :=
  c8_filter_deterministic ⟨[]⟩ ⟨[([], TypeMap.build [])]⟩
    (by intro p hp; cases hp)
    (by intro p hp; simp only [FilterState.typeMaps, List.mem_singleton] at hp; subst hp; rfl)
    ⟨[⟨Kind.objectTypeDefinition, "B", [], [], [], [], []⟩]⟩ [] ["B"] 3

/-- C1: for every name the dependency traversal reaches that has a base
definition, both that base definition's dependencies and the dependencies
of every extension targeting the same name are expanded: each such
dependency that itself has a base definition lands in the visited closure,
in particular the extension dependencies even though the base definition is
present. -/
theorem c1_extension_dependencies_expanded (tm : TypeMap) (fuel : Nat)
    (seeds v : List String) (h : traverseDeps tm fuel [] seeds = some v)
    (n : String) (hn : n ∈ v) (dn : Definition) (hget : tm.getType n = some dn)
    (d : String) (hd : d ∈ addTransitiveTypes dn ++ extDepsOf tm n)
    (hds : (tm.getType d).isSome) : d ∈ v := by
  refine traverseDeps_closed_root tm fuel seeds v h n hn d ?_ hds
  simp only [expandAll, hget, defPushes]
  rcases List.mem_append.mp hd with h1 | h1
  · exact List.mem_append.mpr (Or.inl (List.mem_append.mpr (Or.inl h1)))
  · exact List.mem_append.mpr (Or.inr h1)

theorem c1_extension_dependencies_expanded_witness :
    traverseDeps (TypeMap.build [
      ⟨Kind.objectTypeDefinition, "A", [], [], [⟨"f", none, TypeNode.namedType "B", []⟩],
        [], []⟩,
      ⟨Kind.objectTypeExtension, "A", [], [], [⟨"g", none, TypeNode.namedType "C", []⟩],
        [], []⟩,
      ⟨Kind.objectTypeDefinition, "B", [], [], [], [], []⟩,
      ⟨Kind.objectTypeDefinition, "C", [], [], [], [], []⟩]) 9 [] ["A"] =
      some ["A", "C", "B"] ∧
    "C" ∈ ["A", "C", "B"] :=
  ⟨by decide,
    c1_extension_dependencies_expanded
      (TypeMap.build [
        ⟨Kind.objectTypeDefinition, "A", [], [], [⟨"f", none, TypeNode.namedType "B", []⟩],
          [], []⟩,
        ⟨Kind.objectTypeExtension, "A", [], [], [⟨"g", none, TypeNode.namedType "C", []⟩],
          [], []⟩,
        ⟨Kind.objectTypeDefinition, "B", [], [], [], [], []⟩,
        ⟨Kind.objectTypeDefinition, "C", [], [], [], [], []⟩]) 9 ["A"] ["A", "C", "B"]
      (by decide) "A" (by decide)
      ⟨Kind.objectTypeDefinition, "A", [], [], [⟨"f", none, TypeNode.namedType "B", []⟩],
        [], []⟩
      (by decide) "C" (by decide) (by decide)⟩

/-- C4 counterexample: the claim that the traversal never pushes a built-in
scalar name fails: with union U = String | Foo and a scalar String
definition present, the built-in name String is pushed as a union member
dependency and ends up visited. -/
theorem c4_builtin_pushed_counterexample :
    "String" ∈ addTransitiveTypes
      ⟨Kind.unionTypeDefinition, "U", [], [], [], [⟨"String"⟩, ⟨"Foo"⟩], []⟩ ∧
    traverseDeps (TypeMap.build [
      ⟨Kind.unionTypeDefinition, "U", [], [], [], [⟨"String"⟩, ⟨"Foo"⟩], []⟩,
      ⟨Kind.objectTypeDefinition, "Foo", [], [], [], [], []⟩,
      ⟨Kind.scalarTypeDefinition, "String", [], [], [], [], []⟩]) 9 [] ["U"] =
      some ["U", "Foo", "String"] ∧
    isBuiltInType "String" = true := by decide

/-- C4 amended: only the field-type and argument-type contributions filter
built-in scalars, and they do so completely: an argument's unwrapped type
never contributes a built-in name, and a built-in name among a node's field
dependencies can only come from a field's directive usages, never from a
field's or argument's unwrapped type. -/
theorem c4_builtin_exclusion_amended (b : String) (hb : isBuiltInType b = true) :
    (∀ field : FieldDef, b ∉ addArgumentTypes field) ∧
    (∀ node : Definition, b ∈ addFieldTypes node →
      ∃ f ∈ node.fields, b ∈ f.directives.map Directive.name) := by
  have hargs : ∀ field : FieldDef, b ∉ addArgumentTypes field := by
    intro field hmem
    unfold addArgumentTypes at hmem
    cases harg : field.arguments with
    | none =>
      rw [harg] at hmem
      simp at hmem
    | some args =>
      rw [harg] at hmem
      rcases List.mem_flatMap.mp hmem with ⟨arg, _hargmem, hin⟩
      by_cases hbi : isBuiltInType (unwrapTypeNameFrom arg.type) = true
      · rw [if_pos hbi] at hin
        simp at hin
      · rw [if_neg hbi] at hin
        simp only [List.mem_singleton] at hin
        subst hin
        exact hbi hb
  refine ⟨hargs, ?_⟩
  intro node hmem
  rcases List.mem_flatMap.mp hmem with ⟨f, hf, hin⟩
  refine ⟨f, hf, ?_⟩
  unfold fieldDeps at hin
  rcases List.mem_append.mp hin with h1 | h1
  · rcases List.mem_append.mp h1 with h2 | h2
    · exact absurd h2 (hargs f)
    · by_cases hbi : isBuiltInType (unwrapTypeNameFrom f.type) = true
      · rw [if_pos hbi] at h2
        simp at h2
      · rw [if_neg hbi] at h2
        simp only [List.mem_singleton] at h2
        subst h2
        exact absurd hb hbi
  · exact h1

theorem c4_builtin_exclusion_amended_witness :
    "Int" ∉ addArgumentTypes
      ⟨"f", some [⟨"x", TypeNode.nonNullType (TypeNode.namedType "Int")⟩],
        TypeNode.namedType "Foo", []⟩ :=
  (c4_builtin_exclusion_amended "Int" (by decide)).1
    ⟨"f", some [⟨"x", TypeNode.nonNullType (TypeNode.namedType "Int")⟩],
      TypeNode.namedType "Foo", []⟩

/-- C10: the document the TypeMap-based filter returns contains at most one
base definition per type name: no two non-extension definitions in its
definitions list share the same kind and name, even when the input document
combined with otherDependencies contains duplicates. -/
theorem c10_unique_base_definitions (document : Document)
    (otherDependencies : List Definition) (types : List String) (fuel : Nat)
    (out : Document)
    (h : filterPure document otherDependencies types fuel = some out) :
    out.definitions.Pairwise (fun a b =>
      extensionType a.kind = false → extensionType b.kind = false →
      ¬(a.kind = b.kind ∧ a.name = b.name)) := by
  simp only [filterPure] at h
  cases htrav : traverseDeps (TypeMap.build (otherDependencies ++ document.definitions))
      fuel [] types.reverse with
  | none =>
    rw [htrav] at h
    cases h
  | some visited =>
    rw [htrav] at h
    injection h with h2
    subst h2
    apply pairwise_of_nonext_nodup
    have hnd : visited.Nodup :=
      traverse_nodup _ fuel [] types.reverse visited htrav List.nodup_nil
    show (nonExtensionNames
      (selectDefinitions (TypeMap.build (otherDependencies ++ document.definitions))
        visited)).Nodup
    unfold selectDefinitions
    refine selectFold_nonext_nodup _ ?_ ?_ ?_ visited [] [] hnd ?_ ?_
    · intro m e he
      exact (getTypeExtensions_build he).1
    · intro m e he
      exact (getType_build he).1
    · intro m e he
      exact (getType_build he).2.1
    · intro x hx
      cases hx
    · simp [nonExtensionNames]

theorem c10_unique_base_definitions_witness :
    (Document.mk [⟨Kind.objectTypeDefinition, "X", [], [],
        [⟨"a", some [], TypeNode.namedType "X", []⟩], [], []⟩]).definitions.Pairwise
      (fun a b =>
        extensionType a.kind = false → extensionType b.kind = false →
        ¬(a.kind = b.kind ∧ a.name = b.name)) :=
  c10_unique_base_definitions
    ⟨[⟨Kind.objectTypeDefinition, "X", [], [], [], [], []⟩,
      ⟨Kind.objectTypeDefinition, "X", [], [],
        [⟨"a", some [], TypeNode.namedType "X", []⟩], [], []⟩]⟩
    [⟨Kind.objectTypeDefinition, "X", [], [], [], [], []⟩] ["X"] 9
    ⟨[⟨Kind.objectTypeDefinition, "X", [], [],
      [⟨"a", some [], TypeNode.namedType "X", []⟩], [], []⟩]⟩
    (by decide)

/-- C3 counterexample: the claim fails as stated: in a document where a
later scalar definition reuses the implementer's name, the object type
declaring the requested interface is not retained (the base-definition map
records only the last definition per name), even though the traversal
completes. -/
theorem c3_interface_retention_counterexample :
    (⟨Kind.objectTypeDefinition, "Impl", [], [⟨"I"⟩], [], [], []⟩ : Definition) ∈
      ([⟨Kind.objectTypeDefinition, "Impl", [], [⟨"I"⟩], [], [], []⟩,
        ⟨Kind.scalarTypeDefinition, "Impl", [], [], [], [], []⟩,
        ⟨Kind.interfaceTypeDefinition, "I", [], [], [], [], []⟩] : List Definition) ∧
    filterPure ⟨[⟨Kind.objectTypeDefinition, "Impl", [], [⟨"I"⟩], [], [], []⟩,
      ⟨Kind.scalarTypeDefinition, "Impl", [], [], [], [], []⟩,
      ⟨Kind.interfaceTypeDefinition, "I", [], [], [], [], []⟩]⟩ [] ["I"] 9 =
      some ⟨[⟨Kind.scalarTypeDefinition, "Impl", [], [], [], [], []⟩,
        ⟨Kind.interfaceTypeDefinition, "I", [], [], [], [], []⟩]⟩ ∧
    (⟨Kind.objectTypeDefinition, "Impl", [], [⟨"I"⟩], [], [], []⟩ : Definition) ∉
      ([⟨Kind.scalarTypeDefinition, "Impl", [], [], [], [], []⟩,
        ⟨Kind.interfaceTypeDefinition, "I", [], [], [], [], []⟩] : List Definition) := by
  decide

/-- C3 amended: when the requested names contain an interface name whose
recorded base definition is an interface definition, every object type
definition that declares the interface and is itself the recorded base
definition for its name (not shadowed by a later same-name definition) is
visited and retained in the output, its one-step dependencies with base
definitions are visited too (the closure continues from each of them), and
implementation lists are pushed only for interface definitions and
interface extensions, never for other kinds. -/
theorem c3_interface_pullin_amended (defs : List Definition) (fuel : Nat)
    (seeds v : List String)
    (h : traverseDeps (TypeMap.build defs) fuel [] seeds = some v)
    (i : String) (hi : i ∈ seeds) (di : Definition)
    (hgeti : (TypeMap.build defs).getType i = some di)
    (hkind : di.kind = Kind.interfaceTypeDefinition)
    (o : Definition) (ho : o ∈ defs) (hok : o.kind = Kind.objectTypeDefinition)
    (himpl : i ∈ o.interfaces.map NamedRef.name)
    (hrec : (TypeMap.build defs).getType o.name = some o) :
    o.name ∈ v ∧
    o ∈ selectDefinitions (TypeMap.build defs) v ∧
    (∀ dep ∈ addTransitiveTypes o,
      ((TypeMap.build defs).getType dep).isSome → dep ∈ v) ∧
    (∀ (tm' : TypeMap) (m : String) (d : Definition),
      ¬d.kind = Kind.interfaceTypeDefinition → ¬d.kind = Kind.interfaceTypeExtension →
      defPushes tm' m d = addTransitiveTypes d) := by
  have hiv : i ∈ v :=
    traverse_stack_mem _ fuel [] seeds v h i hi (by simp [hgeti])
  have himplname : o.name ∈ (TypeMap.build defs).getImplementationsOf i :=
    getImpls_build ho (Or.inl hok) himpl
  have honv : o.name ∈ v := by
    refine traverseDeps_closed_root _ fuel seeds v h i hiv o.name ?_ (by simp [hrec])
    simp [expandAll, hgeti, defPushes, hkind, himplname]
  have hnd : v.Nodup := traverse_nodup _ fuel [] seeds v h List.nodup_nil
  refine ⟨honv, ?_, ?_, ?_⟩
  · unfold selectDefinitions
    refine selectFold_retains _ ?_ v [] [] ?_ hnd o.name o honv hrec
    · intro m e he
      exact (getTypeExtensions_build he).1
    · intro p hp
      cases hp
  · intro dep hdep hds
    refine traverseDeps_closed_root _ fuel seeds v h o.name honv dep ?_ hds
    simp only [expandAll, hrec, defPushes]
    exact List.mem_append.mpr (Or.inl (List.mem_append.mpr (Or.inl hdep)))
  · intro tm' m d h1 h2
    simp [defPushes, h1, h2]

theorem c3_interface_pullin_amended_witness :
    "Impl" ∈ ["I", "Impl", "J"] ∧
    (⟨Kind.objectTypeDefinition, "Impl", [], [⟨"I"⟩],
      [⟨"x", some [], TypeNode.namedType "J", []⟩], [], []⟩ : Definition) ∈
      selectDefinitions (TypeMap.build [
        ⟨Kind.interfaceTypeDefinition, "I", [], [], [], [], []⟩,
        ⟨Kind.objectTypeDefinition, "Impl", [], [⟨"I"⟩],
          [⟨"x", some [], TypeNode.namedType "J", []⟩], [], []⟩,
        ⟨Kind.objectTypeDefinition, "J", [], [], [], [], []⟩]) ["I", "Impl", "J"] := by
  have H := c3_interface_pullin_amended
    [⟨Kind.interfaceTypeDefinition, "I", [], [], [], [], []⟩,
      ⟨Kind.objectTypeDefinition, "Impl", [], [⟨"I"⟩],
        [⟨"x", some [], TypeNode.namedType "J", []⟩], [], []⟩,
      ⟨Kind.objectTypeDefinition, "J", [], [], [], [], []⟩] 9 ["I"] ["I", "Impl", "J"]
    (by decide) "I" (by decide)
    ⟨Kind.interfaceTypeDefinition, "I", [], [], [], [], []⟩ (by decide) rfl
    ⟨Kind.objectTypeDefinition, "Impl", [], [⟨"I"⟩],
      [⟨"x", some [], TypeNode.namedType "J", []⟩], [], []⟩
    (by decide) rfl (by decide) (by decide)
  exact ⟨H.1, H.2.1⟩

theorem parseImportLines_spec (basePath : List Char) :
    ∀ (lines : List (List Char)),
      ((∃ e, parseImportLines basePath lines = Except.error e) ↔
        ∃ l ∈ lines, isImportMarker (trimChars l) = true ∧
          regexImportMatch (sliceAfterImport (trimChars l)) = none) ∧
      (∀ res, parseImportLines basePath lines = Except.ok res →
        res = lines.filterMap (lineImportOf basePath)) := by
  intro lines
  induction lines with
  | nil =>
    constructor
    · constructor
      · rintro ⟨e, he⟩
        simp [parseImportLines] at he
      · rintro ⟨l, hl, _⟩
        simp at hl
    · intro res hres
      simp only [parseImportLines, Except.ok.injEq] at hres
      simp [← hres]
  | cons l rest ih =>
    by_cases hm : isImportMarker (trimChars l) = true
    · cases hr : regexImportMatch (sliceAfterImport (trimChars l)) with
      | none =>
        have hpl : parseImportLines basePath (l :: rest) =
            Except.error "Incorrect import syntax" := by
          simp [parseImportLines, hm, hr]
        constructor
        · constructor
          · intro _
            exact ⟨l, by simp, hm, hr⟩
          · intro _
            exact ⟨"Incorrect import syntax", hpl⟩
        · intro res hres
          rw [hpl] at hres
          cases hres
      | some g =>
        obtain ⟨g1, g2⟩ := g
        have hpl : parseImportLines basePath (l :: rest) =
            (parseImportLines basePath rest).map
              (fun xs => importOfMatch basePath g1 g2 :: xs) := by
          simp [parseImportLines, hm, hr]
        constructor
        · constructor
          · rintro ⟨e, he⟩
            rw [hpl] at he
            cases hrest : parseImportLines basePath rest with
            | error e' =>
              obtain ⟨l', hl', hm', hr'⟩ := ih.1.mp ⟨e', hrest⟩
              exact ⟨l', by simp [hl'], hm', hr'⟩
            | ok xs =>
              rw [hrest] at he
              simp [Except.map] at he
          · rintro ⟨l', hl', hm', hr'⟩
            rcases List.mem_cons.mp hl' with rfl | hl2
            · rw [hr] at hr'
              cases hr'
            · obtain ⟨e, he⟩ := ih.1.mpr ⟨l', hl2, hm', hr'⟩
              refine ⟨e, ?_⟩
              rw [hpl, he]
              rfl
        · intro res hres
          rw [hpl] at hres
          cases hrest : parseImportLines basePath rest with
          | error e =>
            rw [hrest] at hres
            cases hres
          | ok xs =>
            rw [hrest] at hres
            simp only [Except.map, Except.ok.injEq] at hres
            have hxs := ih.2 xs hrest
            rw [← hres, hxs]
            simp [List.filterMap_cons, lineImportOf, hm, hr]
    · have hpl : parseImportLines basePath (l :: rest) =
          parseImportLines basePath rest := by
        simp [parseImportLines, hm]
      constructor
      · constructor
        · rintro ⟨e, he⟩
          rw [hpl] at he
          obtain ⟨l', hl', hm', hr'⟩ := ih.1.mp ⟨e, he⟩
          exact ⟨l', by simp [hl'], hm', hr'⟩
        · rintro ⟨l', hl', hm', hr'⟩
          rcases List.mem_cons.mp hl' with rfl | hl2
          · exact absurd hm' hm
          · obtain ⟨e, he⟩ := ih.1.mpr ⟨l', hl2, hm', hr'⟩
            exact ⟨e, by rw [hpl]; exact he⟩
      · intro res hres
        rw [hpl] at hres
        rw [ih.2 res hres]
        simp [List.filterMap_cons, lineImportOf, hm]

/-- C5 amended: parseImportStatements throws exactly when some trimmed line
starts with the import marker but fails the unanchored regex
(a nonempty group, the literal from separator, a quote character, a
nonempty group and a quote character) applied past the word import, in
regexImportMatch; unlike the claim’s
grammar this regex accepts mismatched quote characters and trailing text
after the closing quote. On success the result is exactly the per-line import
statements: the trimmed comma-split names of the first group, and
the trimmed second group resolved against the importing file's directory,
absolute paths unchanged (the content of lineImportOf and importOfMatch). -/
theorem c5_import_syntax_amended (filePath contents : String) :
    ((∃ e, parseImportStatements filePath contents = Except.error e) ↔
      ∃ l ∈ splitLines contents.toList, isImportMarker (trimChars l) = true ∧
        regexImportMatch (sliceAfterImport (trimChars l)) = none) ∧
    (∀ res, parseImportStatements filePath contents = Except.ok res →
      res = (splitLines contents.toList).filterMap
        (lineImportOf (dirname filePath.toList))) :=
  parseImportLines_spec (dirname filePath.toList) (splitLines contents.toList)

theorem c5_import_syntax_amended_witness :
    [({ types := ["A", "B"], fileName := "/d/x.graphql" } : ImportStatement)] =
      (splitLines "#import A, B from \"x.graphql\"".toList).filterMap
        (lineImportOf (dirname "/d/f.graphql".toList)) :=
  (c5_import_syntax_amended "/d/f.graphql" "#import A, B from \"x.graphql\"").2
    [{ types := ["A", "B"], fileName := "/d/x.graphql" }] (by rfl)

/-- C5 counterexample: a marker line whose quoted path opens with a double
quote and closes with a single quote does not match the claim's grammar of
a single- or double-quoted path, yet parseImportStatements does not throw:
it accepts the line and returns an import statement for it. -/
theorem c5_import_syntax_counterexample :
    isImportMarker (trimChars "#import A from \"b\x27".toList) = true ∧
    specImportGrammar (sliceAfterImport (trimChars "#import A from \"b\x27".toList)) =
      false ∧
    parseImportStatements "/a/f.graphql" "#import A from \"b\x27" =
      Except.ok [{ types := ["A"], fileName := "/a/b" }] :=
  ⟨by decide, by decide, by rfl⟩

/-- C7: for a two-file import cycle, file A importing from file B and file
B importing from file A by name, building the import list from A does
terminate (fuel four reaches the empty stack) and each file is read and
parsed exactly once, the visited log being exactly [A, B], with B's request
accumulated onto A's wildcard entry; but the merged load output contains
neither file: the loader passes (document, types) to the three-parameter
filter, leaving its types parameter undefined, so the filter call throws a
TypeError on B's non-wildcard entry and loadFile aborts with no output,
although the repository's own circular-load test expects this load to
succeed. -/
theorem c7_cycle_load_aborts (a b cA cB : String) (tsA tsB : List String)
    (parseDoc : String → Document)
    (hab : a ≠ b)
    (hA : parseImportStatements a cA = Except.ok [⟨tsA, b⟩])
    (hB : parseImportStatements b cB = Except.ok [⟨tsB, a⟩])
    (hstar : tsA.contains "*" = false) :
    buildImports [(a, cA), (b, cB)] 4 [a] [] [(a, ["*"])] =
      some ([(a, "*" :: tsB), (b, tsA)], [a, b]) ∧
    loadFileModel [(a, cA), (b, cB)] parseDoc a 4 = none := by
  have hfa : assocFind [(a, cA), (b, cB)] a = some cA := by
    simp [assocFind]
  have hfb : assocFind [(a, cA), (b, cB)] b = some cB := by
    simp [assocFind, hab]
  have hc1 : ([a] : List String).contains b = false := by
    simp [Ne.symm hab]
  have hc2 : ([a, b] : List String).contains a = true := by
    simp
  have happ1 : assocAppend [(a, ["*"])] b tsA = [(a, ["*"]), (b, tsA)] := by
    simp [assocAppend, assocFind, hab]
  have happ2 : assocAppend [(a, ["*"]), (b, tsA)] a tsB =
      [(a, "*" :: tsB), (b, tsA)] := by
    simp [assocAppend, assocFind, assocSet, hab]
  have hbuild : buildImports [(a, cA), (b, cB)] 4 [a] [] [(a, ["*"])] =
      some ([(a, "*" :: tsB), (b, tsA)], [a, b]) := by
    simp [buildImports, hc1, hc2, hfa, hfb, hA, hB, happ1, happ2, pushAll, Ne.symm hab]
  refine ⟨hbuild, ?_⟩
  have hstar2 : "*" ∉ tsA := by simpa using hstar
  simp [loadFileModel, hbuild, processEntries, hfa, hfb, entryContribution, hstar2,
    loaderFilterCall]

theorem c7_cycle_load_aborts_witness :
    buildImports [("/a.g", "# import Foo from \"/b.g\""),
        ("/b.g", "# import Root from \"/a.g\"\ntype Foo \x7b x: Int \x7d")] 4
        ["/a.g"] [] [("/a.g", ["*"])] =
      some ([("/a.g", ["*", "Root"]), ("/b.g", ["Foo"])], ["/a.g", "/b.g"]) ∧
    loadFileModel [("/a.g", "# import Foo from \"/b.g\""),
        ("/b.g", "# import Root from \"/a.g\"\ntype Foo \x7b x: Int \x7d")]
      (fun _ => ⟨[]⟩) "/a.g" 4 = none :=
  c7_cycle_load_aborts "/a.g" "/b.g" "# import Foo from \"/b.g\""
    "# import Root from \"/a.g\"\ntype Foo \x7b x: Int \x7d" ["Foo"] ["Root"]
    (fun _ => ⟨[]⟩)
    (by decide) (by rfl) (by rfl) (by decide)
